import Mathlib

/-!
Verification of the `bnd-winmd` C-header → WinMD generator against its
specification.  The definitions below are a shallow embedding of the
relevant Rust functions from `bnd-winmd/src/{lib,config,extract,emit}.rs`.
Machine integers are modelled as `Nat`/`Int` with explicit wrapping where
the Rust code truncates; the writer's `HashMap<String, String>` registry is
modelled as an association list where a fresh insertion shadows older
bindings (lookup takes the most recent one), which refines `HashMap::insert`
overwrite semantics.
-/

set_option autoImplicit false

/-- Calling convention (model.rs `CallConv`). -/
inductive CallConv where
  | Cdecl
  | Stdcall
  | Fastcall
  deriving DecidableEq, Repr

/-- The intermediate C type representation (model.rs `CType`). -/
inductive CType where
  | Void
  | Bool
  | I8
  | U8
  | I16
  | U16
  | I32
  | U32
  | I64
  | U64
  | F32
  | F64
  | ISize
  | USize
  | Ptr (pointee : CType) (is_const : Bool)
  | Array (element : CType) (len : Nat)
  | Named (name : String) (resolved : Option CType)
  | FnPtr (return_type : CType) (params : List CType) (calling_convention : CallConv)

/-- A single struct field (model.rs `FieldDef`). -/
structure FieldDef where
  name : String
  ty : CType
  bitfield_width : Option Nat
  bitfield_offset : Option Nat

/-- A C struct/union definition (model.rs `StructDef`). -/
structure StructDef where
  name : String
  size : Nat
  align : Nat
  fields : List FieldDef
  is_union : Bool

/-- A single enum variant (model.rs `EnumVariant`). -/
structure EnumVariant where
  name : String
  signed_value : Int
  unsigned_value : Nat
  deriving DecidableEq, Repr

/-- A C enum definition (model.rs `EnumDef`). -/
structure EnumDef where
  name : String
  underlying_type : CType
  variants : List EnumVariant

/-- A function parameter (model.rs `ParamDef`). -/
structure ParamDef where
  name : String
  ty : CType

/-- A C function declaration (model.rs `FunctionDef`). -/
structure FunctionDef where
  name : String
  return_type : CType
  params : List ParamDef
  calling_convention : CallConv

/-- A C typedef (model.rs `TypedefDef`). -/
structure TypedefDef where
  name : String
  underlying_type : CType

/-- Value of a `#define` constant (model.rs `ConstantValue`).
`Signed` carries an `i64`, `Unsigned` a `u64`, `Float` an `f64`. -/
inductive ConstantValue where
  | Signed (v : Int)
  | Unsigned (v : Nat)
  | Float (v : Float)

/-- A `#define` constant (model.rs `ConstantDef`). -/
structure ConstantDef where
  name : String
  value : ConstantValue

/-- A fully extracted partition (model.rs `Partition`). -/
structure Partition where
  namespace_ : String
  library : String
  structs : List StructDef
  enums : List EnumDef
  functions : List FunctionDef
  typedefs : List TypedefDef
  constants : List ConstantDef

/-- Global type registry (model.rs `TypeRegistry`): name → namespace map,
modelled as an association list where the most recent binding wins. -/
structure TypeRegistry where
  types : List (String × String)

/-- TypeRegistry::register — `HashMap::insert`, i.e. overwrite. -/
def TypeRegistry.register (r : TypeRegistry) (name namespace_ : String) : TypeRegistry :=
  ⟨(name, namespace_) :: r.types⟩

/-- TypeRegistry::contains. -/
def TypeRegistry.contains (r : TypeRegistry) (name : String) : Bool :=
  r.types.any (fun p => p.1 == name)

/-- TypeRegistry::namespace_for — the registered namespace, else the default. -/
def TypeRegistry.namespace_for (r : TypeRegistry) (name default_namespace : String) : String :=
  match r.types.find? (fun p => p.1 == name) with
  | some p => p.2
  | none => default_namespace

/-- The `namespace_overrides.get(&name).unwrap_or(&ns)` idiom from
`build_type_registry` (extract.rs): the override for `name` if configured,
else `default_ns`. -/
def ovNs (ov : List (String × String)) (name default_ns : String) : String :=
  match ov.find? (fun p => p.1 == name) with
  | some p => p.2
  | none => default_ns

/-- Registering a list of names unconditionally (the struct and enum loops of
`build_type_registry`, extract.rs lines 862-873). -/
def registerAll (ov : List (String × String)) (pns : String) (reg : TypeRegistry)
    (names : List String) : TypeRegistry :=
  names.foldl (fun r nm => r.register nm (ovNs ov nm pns)) reg

/-- Registering a list of names only when absent (the typedef loop of
`build_type_registry`, extract.rs lines 874-884: first-writer-wins). -/
def registerNew (ov : List (String × String)) (pns : String) (reg : TypeRegistry)
    (names : List String) : TypeRegistry :=
  names.foldl (fun r nm => if r.contains nm then r else r.register nm (ovNs ov nm pns)) reg

/-- One partition's contribution to the registry: structs, then enums
(both unconditional), then typedefs (only if absent). -/
def buildStep (ov : List (String × String)) (reg : TypeRegistry) (p : Partition) : TypeRegistry :=
  registerNew ov p.namespace_
    (registerAll ov p.namespace_
      (registerAll ov p.namespace_ reg (p.structs.map (·.name)))
      (p.enums.map (·.name)))
    (p.typedefs.map (·.name))

/-- extract.rs `build_type_registry`: fold all partitions in configuration
order into the registry. -/
def build_type_registry (partitions : List Partition) (ov : List (String × String)) :
    TypeRegistry :=
  partitions.foldl (buildStep ov) ⟨[]⟩

/-- Lexicographic order on character lists. -/
def charListLt : List Char → List Char → Bool
  | [], [] => false
  | [], _ :: _ => true
  | _ :: _, [] => false
  | a :: as, b :: bs =>
      if a.toNat < b.toNat then true
      else if b.toNat < a.toNat then false
      else charListLt as bs

/-- Rust `&str` `<` (byte-lexicographic `Ord`; UTF-8 byte order coincides
with codepoint order, so character order is the same relation). -/
def strLt (a b : String) : Bool :=
  charListLt a.toList b.toList

/-- Rust `str::starts_with` for a string pattern. -/
def strStartsWith (s pre : String) : Bool :=
  pre.toList.isPrefixOf s.toList

/-- lib.rs `seed_registry_from_winmd`, the per-type decision for one external
type `(name, ns)` (lines 206-213): insert when absent; when present, keep the
existing entry only if it is lexicographically smaller than `ns`, otherwise
re-register under `ns`. -/
def seedStep (reg : TypeRegistry) (name ns : String) : TypeRegistry :=
  if !reg.contains name then reg.register name ns
  else if strLt (reg.namespace_for name "") ns then reg
  else reg.register name ns

/-- lib.rs `seed_registry_from_winmd`: walk the external file's type list in
order, skipping the synthetic `<Module>`/`Apis` entries, empty namespaces and
namespaces outside the configured filter. -/
def seed_registry_from_winmd (reg : TypeRegistry) (types : List (String × String))
    (ns_filter : String) : TypeRegistry :=
  types.foldl
    (fun r t =>
      if t.2 = "" || t.1 = "<Module>" || t.1 = "Apis" then r
      else if !strStartsWith t.2 ns_filter then r
      else seedStep r t.1 t.2)
    reg

/-- lib.rs `generate_from_config` lines 131-158: the post-registry
deduplication pass on one partition.  `retain` keeps a typedef/struct iff its
registry-resolved namespace equals the partition's own. -/
def dedupPartition (registry : TypeRegistry) (p : Partition) : Partition :=
  { p with
    typedefs := p.typedefs.filter
      (fun td => registry.namespace_for td.name p.namespace_ == p.namespace_),
    structs := p.structs.filter
      (fun sd => registry.namespace_for sd.name p.namespace_ == p.namespace_) }

/-- The dedup pass over all partitions. -/
def dedupPartitions (registry : TypeRegistry) (ps : List Partition) : List Partition :=
  ps.map (dedupPartition registry)

/-- The (namespace, name) pairs of the TypeDef rows `emit_partition`
(emit.rs lines 29-68) creates for one partition: its enums, structs and
typedefs in order, then the synthetic `Apis` class when the partition has any
function or constant. -/
def emittedTypeDefRows (p : Partition) : List (String × String) :=
  p.enums.map (fun e => (p.namespace_, e.name))
    ++ p.structs.map (fun s => (p.namespace_, s.name))
    ++ p.typedefs.map (fun td => (p.namespace_, td.name))
    ++ (if p.functions.isEmpty && p.constants.isEmpty then [] else [(p.namespace_, "Apis")])

/-- Unix absolute-path test (`Path::is_absolute` on Linux). Paths are modelled
as strings; `joinPath` models `Path::join` with a relative right operand. -/
def isAbsolutePath (p : String) : Bool :=
  match p.toList with
  | '/' :: _ => true
  | _ => false

/-- Path join for a relative right operand. -/
def joinPath (a b : String) : String :=
  a ++ "/" ++ b

/-- config.rs `resolve_header`.  The filesystem is abstracted as the
predicate `ex` saying which paths exist. -/
def resolve_header (ex : String → Bool) (path base_dir : String)
    (include_paths : List String) : String :=
  if isAbsolutePath path then path
  else
    let candidate := joinPath base_dir path
    if ex candidate then candidate
    else
      match include_paths.find? (fun inc => ex (joinPath inc path)) with
      | some inc => joinPath inc path
      | none => joinPath base_dir path

/-- extract.rs `extract_function` lines 565-571: C array parameters decay to
mutable pointers. -/
def decayParam (ty : CType) : CType :=
  match ty with
  | .Array element _ => .Ptr element false
  | other => other

/-- Modelled from the spec: `CType::is_outer_ptr_mut` lives in bnd-winmd's
`model.rs`, which is not among the provided sources (only its callers in
emit.rs are).  Per the spec's pointer-mutability protocol, the output flag is
set "iff the parameter's outermost pointer type is non-const". -/
def isOuterPtrMut : CType → Bool
  | .Ptr _ is_const => !is_const
  | _ => false

/-- The subset of `windows_metadata::Type` the emitter uses, plus `PtrConst`
so that "every pointer is encoded mutable" is a contentful statement. -/
inductive WinType where
  | Void
  | Bool
  | I8
  | U8
  | I16
  | U16
  | I32
  | U32
  | I64
  | U64
  | F32
  | F64
  | ISize
  | USize
  | PtrMut (inner : WinType) (depth : Nat)
  | PtrConst (inner : WinType) (depth : Nat)
  | ArrayFixed (inner : WinType) (len : Nat)
  | Named (ns : String) (name : String)
  deriving DecidableEq, Repr

/-- emit.rs `ctype_to_wintype`. -/
def ctype_to_wintype (ctype : CType) (default_namespace : String) (registry : TypeRegistry) :
    WinType :=
  match ctype with
  | .Void => .Void
  | .Bool => .Bool
  | .I8 => .I8
  | .U8 => .U8
  | .I16 => .I16
  | .U16 => .U16
  | .I32 => .I32
  | .U32 => .U32
  | .I64 => .I64
  | .U64 => .U64
  | .F32 => .F32
  | .F64 => .F64
  | .ISize => .ISize
  | .USize => .USize
  | .Ptr pointee _ => .PtrMut (ctype_to_wintype pointee default_namespace registry) 1
  | .Array element len => .ArrayFixed (ctype_to_wintype element default_namespace registry) len
  | .Named name (some resolved) =>
      if registry.contains name then
        .Named (registry.namespace_for name default_namespace) name
      else ctype_to_wintype resolved default_namespace registry
  | .Named name none => .Named (registry.namespace_for name default_namespace) name
  | .FnPtr _ _ _ => .ISize

/-- No `PtrConst` occurs anywhere in a `WinType` (every pointer mutable). -/
def noPtrConst : WinType → Bool
  | .PtrMut inner _ => noPtrConst inner
  | .PtrConst _ _ => false
  | .ArrayFixed inner _ => noPtrConst inner
  | _ => true

/-- emit.rs `emit_function` lines 319-330: the parameter rows, each carrying
the parameter name, its 1-based sequence number, and whether
`ParamAttributes::Out` was set (true iff `is_outer_ptr_mut`). -/
def emitParamRecords (f : FunctionDef) : List (String × Nat × Bool) :=
  f.params.enum.map (fun ip => (ip.2.name, ip.1 + 1, isOuterPtrMut ip.2.ty))

/-- emit.rs `emit_function` lines 292-297: the parameter type blobs of the
method signature. -/
def emitParamBlobTypes (f : FunctionDef) (ns : String) (registry : TypeRegistry) :
    List WinType :=
  f.params.map (fun p => ctype_to_wintype p.ty ns registry)

/-- The shape of one emitted typedef: either a delegate (with the name of its
virtual method and the Invoke signature's return/parameter blobs) or a
wrapper struct (with its single field's name and type blob). -/
inductive EmittedTypedef where
  | delegate (name : String) (methodName : String) (ret : WinType) (params : List WinType)
  | wrapper (name : String) (fieldName : String) (fieldType : WinType)
  deriving DecidableEq, Repr

/-- emit.rs `emit_typedef` lines 170-185: the function-prototype probe — a
`FnPtr` directly, or a `Ptr` whose pointee is a `FnPtr`. -/
def typedefFnProto : CType → Option (CType × List CType)
  | .FnPtr return_type params _ => some (return_type, params)
  | .Ptr pointee _ =>
      match pointee with
      | .FnPtr return_type params _ => some (return_type, params)
      | _ => none
  | _ => none

/-- Bool test for the `CType::Void` pattern of `emit_typedef`'s wrapper arm. -/
def isVoidTy : CType → Bool
  | .Void => true
  | _ => false

/-- emit.rs `emit_typedef` (with `emit_delegate`, lines 161-279): delegates
get an `Invoke` method with the prototype's signature; everything else
becomes a wrapper struct with one `Value` field, `Void` mapping to `ISize`. -/
def emit_typedef (ns : String) (td : TypedefDef) (registry : TypeRegistry) : EmittedTypedef :=
  match typedefFnProto td.underlying_type with
  | some (return_type, params) =>
      .delegate td.name "Invoke" (ctype_to_wintype return_type ns registry)
        (params.map (fun p => ctype_to_wintype p ns registry))
  | none =>
      .wrapper td.name "Value"
        (if isVoidTy td.underlying_type then .ISize
         else ctype_to_wintype td.underlying_type ns registry)

/-- The constant values the emitter attaches
(subset of `windows_metadata::Value`). -/
inductive WinValue where
  | I32 (v : Int)
  | U32 (v : Nat)
  | U64 (v : Nat)
  | F64 (v : Float)

/-- Two's-complement truncation of an `i64` value to `i32`
(Rust `v as i32`). -/
def toI32 (v : Int) : Int :=
  (v + 2 ^ 31) % 2 ^ 32 - 2 ^ 31

/-- emit.rs `emit_constant` lines 340-365: metadata type and attached value
chosen from the constant's value. -/
def emit_constant (c : ConstantDef) : WinType × WinValue :=
  match c.value with
  | .Signed v => (.I32, .I32 (toI32 v))
  | .Unsigned v => if v ≤ 4294967295 then (.U32, .U32 v) else (.U64, .U64 v)
  | .Float v => (.F64, .F64 v)

/-- Characters Rust's `trim_end_matches(['u', 'U', 'l', 'L'])` strips. -/
def isSuffixChar (c : Char) : Bool :=
  c = 'u' || c = 'U' || c = 'l' || c = 'L'

/-- extract.rs line 361: strip any maximal trailing run of integer-suffix
characters. -/
def trimIntSuffix (cs : List Char) : List Char :=
  ((cs.reverse).dropWhile isSuffixChar).reverse

/-- `char::to_digit(radix)`: the digit's value if the character is a valid
digit for `radix` (candidate value from the character class, then a
range check against the radix). -/
def digitVal (radix : Nat) (c : Char) : Option Nat :=
  if '0' ≤ c ∧ c ≤ '9' then
    if c.toNat - '0'.toNat < radix then some (c.toNat - '0'.toNat) else none
  else if 'a' ≤ c ∧ c ≤ 'z' then
    if c.toNat - 'a'.toNat + 10 < radix then some (c.toNat - 'a'.toNat + 10) else none
  else if 'A' ≤ c ∧ c ≤ 'Z' then
    if c.toNat - 'A'.toNat + 10 < radix then some (c.toNat - 'A'.toNat + 10) else none
  else none

/-- Digit-accumulation loop of `from_str_radix`; `none` once an invalid
digit is hit. -/
def digitsAccGo (radix : Nat) (acc : Option Nat) : List Char → Option Nat
  | [] => acc
  | c :: rest =>
      digitsAccGo radix
        (match acc, digitVal radix c with
         | some a, some d => some (a * radix + d)
         | _, _ => none)
        rest

/-- Accumulate a digit string in base `radix` from zero. -/
def digitsAcc (radix : Nat) (cs : List Char) : Option Nat :=
  digitsAccGo radix (some 0) cs

/-- A nonempty all-valid digit string whose value fits in a `u64`
(`from_str_radix` fails on an empty string, an invalid digit, or overflow;
because accumulation is monotone, overflow-at-any-step is equivalent to the
final value exceeding `u64::MAX`). -/
def digitsVal64 (radix : Nat) (cs : List Char) : Option Nat :=
  if cs.isEmpty then none
  else
    match digitsAcc radix cs with
    | some v => if v < 2 ^ 64 then some v else none
    | none => none

/-- Rust `u64::from_str_radix` (also `str::parse::<u64>` for radix 10): an
optional leading sign, then digits; a `-` sign is only accepted for the
value zero. -/
def fromStrRadix (radix : Nat) (cs : List Char) : Option Nat :=
  match cs with
  | '+' :: rest => digitsVal64 radix rest
  | '-' :: rest =>
      match digitsVal64 radix rest with
      | some 0 => some 0
      | _ => none
  | _ => digitsVal64 radix cs

/-- extract.rs `parse_hex_or_suffixed_int` lines 363-376: the
`strip_prefix` chain on the already-suffix-trimmed token. -/
def parseCore (t : List Char) : Option Nat :=
  match t with
  | '0' :: 'x' :: rest => fromStrRadix 16 rest
  | '0' :: 'X' :: rest => fromStrRadix 16 rest
  | '0' :: rest =>
      if rest.isEmpty then some 0
      else if rest.all Char.isDigit then fromStrRadix 8 rest
      else none
  | _ => fromStrRadix 10 t

/-- extract.rs `parse_hex_or_suffixed_int` (lines 359-377), on the token's
character list: strip the suffix run, then parse the core. -/
def parse_hex_or_suffixed_int (s : List Char) : Option Nat :=
  parseCore (trimIntSuffix s)

/-- Two's-complement wrap of an integer into the `i64` range. -/
def wrapI64 (z : Int) : Int :=
  (z + 2 ^ 63) % 2 ^ 64 - 2 ^ 63

/-- Rust `-(val as i64)` with release-mode (wrapping) negation semantics. -/
def negI64 (val : Nat) : Int :=
  wrapI64 (-(wrapI64 (val : Int)))

/-- extract.rs `collect_constants` lines 325-351, the supplemental macro
walk for one `MacroDefinition` whose token spellings are `tokens` (the macro
name first): strip a trailing `"#"` clang sometimes appends, accept
name+literal or name+`-`+literal, parse the literal, and build the
`ConstantValue` exactly as the Rust does. -/
def tokensToConstant (tokens : List String) : Option ConstantValue :=
  let tokens :=
    match tokens.getLast? with
    | some t => if t = "#" then tokens.dropLast else tokens
    | none => tokens
  let shape : Option (Bool × String) :=
    match tokens with
    | [_, t] => some (false, t)
    | [_, m, t] => if m = "-" then some (true, t) else none
    | _ => none
  match shape with
  | none => none
  | some (negated, tok) =>
      match parse_hex_or_suffixed_int tok.toList with
      | none => none
      | some val =>
          if negated then some (.Signed (negI64 val))
          else if val ≤ 2 ^ 63 - 1 then some (.Signed (val : Int))
          else some (.Unsigned val)

/-- lib.rs `UnresolvedRef`: one unresolved type reference with its context. -/
structure UnresolvedRef where
  type_name : String
  partition : String
  context : String
  deriving DecidableEq, Repr

mutual

/-- lib.rs `collect_unresolved`: walk a `CType` and collect every
`Named { resolved: None }` whose name the registry lacks, in traversal order
(pointee / element / return type then parameters). -/
def collect_unresolved (registry : TypeRegistry) (partition_ns context : String) :
    CType → List UnresolvedRef
  | .Named name resolved =>
      if resolved.isNone && !registry.contains name then
        [⟨name, partition_ns, context⟩]
      else []
  | .Ptr pointee _ => collect_unresolved registry partition_ns context pointee
  | .Array element _ => collect_unresolved registry partition_ns context element
  | .FnPtr return_type params _ =>
      collect_unresolved registry partition_ns context return_type
        ++ collectUnresolvedList registry partition_ns context params
  | _ => []

/-- `collect_unresolved` mapped over a parameter list. -/
def collectUnresolvedList (registry : TypeRegistry) (partition_ns context : String) :
    List CType → List UnresolvedRef
  | [] => []
  | t :: ts =>
      collect_unresolved registry partition_ns context t
        ++ collectUnresolvedList registry partition_ns context ts

end

mutual

/-- Specification-side resolvability predicate: every `Named` with
`resolved = None` reachable inside the type is present in the registry. -/
def ctypeResolved (registry : TypeRegistry) : CType → Bool
  | .Named name resolved => resolved.isSome || registry.contains name
  | .Ptr pointee _ => ctypeResolved registry pointee
  | .Array element _ => ctypeResolved registry element
  | .FnPtr return_type params _ =>
      ctypeResolved registry return_type && ctypeResolvedList registry params
  | _ => true

/-- `ctypeResolved` over a list of types. -/
def ctypeResolvedList (registry : TypeRegistry) : List CType → Bool
  | [] => true
  | t :: ts => ctypeResolved registry t && ctypeResolvedList registry ts

end

/-- lib.rs `validate_type_references` lines 246-289: the unresolved
references of one partition, in traversal order — struct fields, then
function return types and parameters, then typedefs. -/
def partitionUnresolved (registry : TypeRegistry) (p : Partition) : List UnresolvedRef :=
  (p.structs.flatMap fun s =>
    s.fields.flatMap fun field =>
      collect_unresolved registry p.namespace_
        ("field `" ++ field.name ++ "` of struct `" ++ s.name ++ "`") field.ty)
    ++ (p.functions.flatMap fun f =>
      collect_unresolved registry p.namespace_
          ("return type of function `" ++ f.name ++ "`") f.return_type
        ++ f.params.flatMap fun param =>
          collect_unresolved registry p.namespace_
            ("param `" ++ param.name ++ "` of function `" ++ f.name ++ "`") param.ty)
    ++ (p.typedefs.flatMap fun td =>
      collect_unresolved registry p.namespace_
        ("typedef `" ++ td.name ++ "`") td.underlying_type)

/-- All unresolved references over every partition, in order. -/
def allUnresolved (registry : TypeRegistry) (partitions : List Partition) :
    List UnresolvedRef :=
  partitions.flatMap (partitionUnresolved registry)

/-- lib.rs `validate_type_references` lines 297-303: deduplicate by type
name, keeping the first usage context of each name (`seen` is the set of
names already taken). -/
def dedupFirstByName (seen : List String) : List UnresolvedRef → List UnresolvedRef
  | [] => []
  | r :: rs =>
      if r.type_name ∈ seen then dedupFirstByName seen rs
      else r :: dedupFirstByName (r.type_name :: seen) rs

/-- lib.rs `validate_type_references`: `Ok` when no unresolved reference
exists, otherwise the error carries the name-deduplicated reference list the
combined message is formatted from (one bullet per entry). -/
def validate_type_references (partitions : List Partition) (registry : TypeRegistry) :
    Except (List UnresolvedRef) Unit :=
  let unresolved := allUnresolved registry partitions
  if unresolved.isEmpty then .ok ()
  else .error (dedupFirstByName [] unresolved)

/-- Bool test: does the partition contribute `n` as a struct or enum name? -/
def seContrib (p : Partition) (n : String) : Bool :=
  p.structs.any (fun s => s.name == n) || p.enums.any (fun e => e.name == n)

/-- Bool test: does the partition contribute `n` as an enum name? -/
def enumContrib (p : Partition) (n : String) : Bool :=
  p.enums.any (fun e => e.name == n)

/-- Bool test: does the partition contribute `n` as a typedef name? -/
def tdContrib (p : Partition) (n : String) : Bool :=
  p.typedefs.any (fun td => td.name == n)

/-- The integer-literal suffixes the spec lists: `U`, `L`, `LL`, `UL`, `ULL`,
case-insensitive (empty = no suffix). -/
def claimSuffixOK (suf : List Char) : Bool :=
  let l := suf.map Char.toLower
  l = [] || l = ['u'] || l = ['l'] || l = ['l', 'l'] || l = ['u', 'l'] || l = ['u', 'l', 'l']

/-- Is `c` a hexadecimal digit character? -/
def isHexDigitCh (c : Char) : Bool :=
  ('0' ≤ c && c ≤ '9') || ('a' ≤ c && c ≤ 'f') || ('A' ≤ c && c ≤ 'F')

/-- Is `c` an octal digit character? -/
def isOctDigitCh (c : Char) : Bool :=
  '0' ≤ c && c ≤ '7'

/-- The claim's literal grammar for the un-suffixed core: hexadecimal
(`0x…`/`0X…`), octal (leading `0`), or decimal. -/
def claimCoreOK : List Char → Bool
  | '0' :: 'x' :: ds => !ds.isEmpty && ds.all isHexDigitCh
  | '0' :: 'X' :: ds => !ds.isEmpty && ds.all isHexDigitCh
  | '0' :: ds => ds.all isOctDigitCh
  | ds => !ds.isEmpty && ds.all Char.isDigit

/-- The token grammar exactly as the claim states it (spec §4.1 constants):
some split of the token into core ++ suffix with a listed suffix and a
hex/octal/decimal core. -/
def claimTokenOK (s : String) : Bool :=
  let cs := s.toList
  (List.range (cs.length + 1)).any
    (fun k => claimCoreOK (cs.take k) && claimSuffixOK (cs.drop k))

/-! ### Registry lemmas -/

theorem registerAll_nil (ov : List (String × String)) (pns : String) (reg : TypeRegistry) :
    registerAll ov pns reg [] = reg := rfl

theorem registerAll_cons (ov : List (String × String)) (pns : String) (reg : TypeRegistry)
    (nm : String) (rest : List String) :
    registerAll ov pns reg (nm :: rest)
      = registerAll ov pns (reg.register nm (ovNs ov nm pns)) rest := rfl

theorem registerNew_nil (ov : List (String × String)) (pns : String) (reg : TypeRegistry) :
    registerNew ov pns reg [] = reg := rfl

theorem registerNew_cons (ov : List (String × String)) (pns : String) (reg : TypeRegistry)
    (nm : String) (rest : List String) :
    registerNew ov pns reg (nm :: rest)
      = registerNew ov pns
          (if reg.contains nm then reg else reg.register nm (ovNs ov nm pns)) rest := rfl

theorem contains_register (r : TypeRegistry) (m ns n : String) :
    (r.register m ns).contains n = (m == n || r.contains n) := by
  simp [TypeRegistry.register, TypeRegistry.contains]

theorem namespace_for_register_self (r : TypeRegistry) (n ns d : String) :
    (r.register n ns).namespace_for n d = ns := by
  simp [TypeRegistry.register, TypeRegistry.namespace_for]

theorem namespace_for_register_ne (r : TypeRegistry) (m ns n d : String) (h : m ≠ n) :
    (r.register m ns).namespace_for n d = r.namespace_for n d := by
  simp [TypeRegistry.register, TypeRegistry.namespace_for, List.find?_cons, h]

theorem contains_registerAll_of_not_mem (ov : List (String × String)) (pns : String)
    (names : List String) (reg : TypeRegistry) (n : String) (h : n ∉ names) :
    (registerAll ov pns reg names).contains n = reg.contains n := by
  induction names generalizing reg with
  | nil => rfl
  | cons nm rest ih =>
      rw [registerAll_cons, ih _ (fun hm => h (List.mem_cons_of_mem _ hm)), contains_register]
      have hne : nm ≠ n := fun he => h (he ▸ List.mem_cons_self _ _)
      simp [hne]

theorem namespace_for_registerAll_of_not_mem (ov : List (String × String)) (pns : String)
    (names : List String) (reg : TypeRegistry) (n d : String) (h : n ∉ names) :
    (registerAll ov pns reg names).namespace_for n d = reg.namespace_for n d := by
  induction names generalizing reg with
  | nil => rfl
  | cons nm rest ih =>
      rw [registerAll_cons, ih _ (fun hm => h (List.mem_cons_of_mem _ hm))]
      exact namespace_for_register_ne _ _ _ _ _ (fun he => h (he ▸ List.mem_cons_self _ _))

theorem registerAll_of_mem (ov : List (String × String)) (pns : String)
    (names : List String) (reg : TypeRegistry) (n d : String) (h : n ∈ names) :
    (registerAll ov pns reg names).namespace_for n d = ovNs ov n pns
      ∧ (registerAll ov pns reg names).contains n = true := by
  induction names generalizing reg with
  | nil => cases h
  | cons nm rest ih =>
      rw [registerAll_cons]
      by_cases hrest : n ∈ rest
      · exact ih _ hrest
      · have hnm : nm = n := by
          rcases List.mem_cons.mp h with h1 | h2
          · exact h1.symm
          · exact absurd h2 hrest
        subst hnm
        constructor
        · rw [namespace_for_registerAll_of_not_mem _ _ _ _ _ _ hrest,
            namespace_for_register_self]
        · rw [contains_registerAll_of_not_mem _ _ _ _ _ hrest, contains_register]
          simp

theorem registerNew_of_contains (ov : List (String × String)) (pns : String)
    (names : List String) (reg : TypeRegistry) (n d : String)
    (h : reg.contains n = true) :
    (registerNew ov pns reg names).namespace_for n d = reg.namespace_for n d
      ∧ (registerNew ov pns reg names).contains n = true := by
  induction names generalizing reg with
  | nil => exact ⟨rfl, h⟩
  | cons nm rest ih =>
      rw [registerNew_cons]
      by_cases hc : reg.contains nm
      · rw [if_pos hc]
        exact ih reg h
      · rw [if_neg hc]
        have hne : nm ≠ n := fun he => hc (he ▸ h)
        have hc2 : (reg.register nm (ovNs ov nm pns)).contains n = true := by
          rw [contains_register]; simp [h]
        obtain ⟨h1, h2⟩ := ih _ hc2
        refine ⟨?_, h2⟩
        rw [h1, namespace_for_register_ne _ _ _ _ _ hne]

theorem registerNew_of_not_mem (ov : List (String × String)) (pns : String)
    (names : List String) (reg : TypeRegistry) (n d : String) (h : n ∉ names) :
    (registerNew ov pns reg names).namespace_for n d = reg.namespace_for n d
      ∧ (registerNew ov pns reg names).contains n = reg.contains n := by
  induction names generalizing reg with
  | nil => exact ⟨rfl, rfl⟩
  | cons nm rest ih =>
      rw [registerNew_cons]
      have hrest : n ∉ rest := fun hm => h (List.mem_cons_of_mem _ hm)
      have hne : nm ≠ n := fun he => h (he ▸ List.mem_cons_self _ _)
      by_cases hc : reg.contains nm
      · rw [if_pos hc]; exact ih reg hrest
      · rw [if_neg hc]
        obtain ⟨h1, h2⟩ := ih _ hrest
        constructor
        · rw [h1, namespace_for_register_ne _ _ _ _ _ hne]
        · rw [h2, contains_register]
          simp [hne]

theorem registerNew_of_new_mem (ov : List (String × String)) (pns : String)
    (names : List String) (reg : TypeRegistry) (n d : String)
    (hmem : n ∈ names) (h : reg.contains n = false) :
    (registerNew ov pns reg names).namespace_for n d = ovNs ov n pns
      ∧ (registerNew ov pns reg names).contains n = true := by
  induction names generalizing reg with
  | nil => cases hmem
  | cons nm rest ih =>
      rw [registerNew_cons]
      by_cases he : nm = n
      · subst he
        rw [if_neg (by simp [h])]
        have hc : (reg.register nm (ovNs ov nm pns)).contains nm = true := by
          rw [contains_register]; simp
        obtain ⟨h1, h2⟩ := registerNew_of_contains ov pns rest _ nm d hc
        rw [h1, namespace_for_register_self]
        exact ⟨rfl, h2⟩
      · have hrest : n ∈ rest := by
          rcases List.mem_cons.mp hmem with h1 | h2
          · exact absurd h1.symm he
          · exact h2
        by_cases hc : reg.contains nm
        · rw [if_pos hc]; exact ih reg hrest h
        · rw [if_neg hc]
          refine ih _ hrest ?_
          rw [contains_register]
          simp [he, h]

theorem any_name_eq_iff_mem_map {α : Type} (l : List α) (f : α → String) (n : String) :
    (l.any (fun x => f x == n) = true) ↔ n ∈ l.map f := by
  simp only [List.any_eq_true, beq_iff_eq, List.mem_map]

theorem namespace_for_eq_of_contains (r : TypeRegistry) (n d d' : String)
    (h : r.contains n = true) :
    r.namespace_for n d = r.namespace_for n d' := by
  unfold TypeRegistry.namespace_for
  cases hfind : r.types.find? (fun p => p.1 == n) with
  | some p => rfl
  | none =>
      exfalso
      rw [List.find?_eq_none] at hfind
      rcases List.any_eq_true.mp h with ⟨x, hx, hbeq⟩
      exact hfind x hx hbeq

theorem buildStep_se (ov : List (String × String)) (reg : TypeRegistry) (p : Partition)
    (n d : String) (h : seContrib p n = true) :
    (buildStep ov reg p).namespace_for n d = ovNs ov n p.namespace_
      ∧ (buildStep ov reg p).contains n = true := by
  unfold buildStep
  by_cases hen : n ∈ p.enums.map (·.name)
  · obtain ⟨h1, h2⟩ := registerAll_of_mem ov p.namespace_ (p.enums.map (·.name))
      (registerAll ov p.namespace_ reg (p.structs.map (·.name))) n d hen
    obtain ⟨h3, h4⟩ := registerNew_of_contains ov p.namespace_ (p.typedefs.map (·.name)) _ n d h2
    exact ⟨h3.trans h1, h4⟩
  · have hst : n ∈ p.structs.map (·.name) := by
      unfold seContrib at h
      rcases Bool.or_eq_true_iff.mp h with h1 | h2
      · exact (any_name_eq_iff_mem_map _ _ _).mp h1
      · exact absurd ((any_name_eq_iff_mem_map _ _ _).mp h2) hen
    obtain ⟨h1, h2⟩ := registerAll_of_mem ov p.namespace_ (p.structs.map (·.name)) reg n d hst
    have h1' := (namespace_for_registerAll_of_not_mem ov p.namespace_ (p.enums.map (·.name))
      _ n d hen).trans h1
    have h2' : (registerAll ov p.namespace_
        (registerAll ov p.namespace_ reg (p.structs.map (·.name)))
        (p.enums.map (·.name))).contains n = true :=
      (contains_registerAll_of_not_mem ov p.namespace_ (p.enums.map (·.name)) _ n hen).trans h2
    obtain ⟨h3, h4⟩ := registerNew_of_contains ov p.namespace_ (p.typedefs.map (·.name)) _ n d h2'
    exact ⟨h3.trans h1', h4⟩

theorem buildStep_keep (ov : List (String × String)) (reg : TypeRegistry) (p : Partition)
    (n d : String) (hse : seContrib p n = false) (hcont : reg.contains n = true) :
    (buildStep ov reg p).namespace_for n d = reg.namespace_for n d
      ∧ (buildStep ov reg p).contains n = true := by
  unfold buildStep
  have hst : n ∉ p.structs.map (·.name) := by
    intro hm
    have := (any_name_eq_iff_mem_map _ _ _).mpr hm
    unfold seContrib at hse
    simp [this] at hse
  have hen : n ∉ p.enums.map (·.name) := by
    intro hm
    have := (any_name_eq_iff_mem_map _ _ _).mpr hm
    unfold seContrib at hse
    simp [this] at hse
  have hc1 : (registerAll ov p.namespace_ reg (p.structs.map (·.name))).contains n = true :=
    (contains_registerAll_of_not_mem ov p.namespace_ _ reg n hst).trans hcont
  have hc2 : (registerAll ov p.namespace_
      (registerAll ov p.namespace_ reg (p.structs.map (·.name)))
      (p.enums.map (·.name))).contains n = true :=
    (contains_registerAll_of_not_mem ov p.namespace_ _ _ n hen).trans hc1
  obtain ⟨h3, h4⟩ := registerNew_of_contains ov p.namespace_ (p.typedefs.map (·.name)) _ n d hc2
  refine ⟨h3.trans ?_, h4⟩
  rw [namespace_for_registerAll_of_not_mem ov p.namespace_ _ _ n d hen,
    namespace_for_registerAll_of_not_mem ov p.namespace_ _ _ n d hst]

theorem buildStep_none (ov : List (String × String)) (reg : TypeRegistry) (p : Partition)
    (n d : String) (hse : seContrib p n = false) (htd : tdContrib p n = false) :
    (buildStep ov reg p).namespace_for n d = reg.namespace_for n d
      ∧ (buildStep ov reg p).contains n = reg.contains n := by
  unfold buildStep
  have hst : n ∉ p.structs.map (·.name) := by
    intro hm
    have := (any_name_eq_iff_mem_map _ _ _).mpr hm
    unfold seContrib at hse
    simp [this] at hse
  have hen : n ∉ p.enums.map (·.name) := by
    intro hm
    have := (any_name_eq_iff_mem_map _ _ _).mpr hm
    unfold seContrib at hse
    simp [this] at hse
  have htd' : n ∉ p.typedefs.map (·.name) := by
    intro hm
    have := (any_name_eq_iff_mem_map _ _ _).mpr hm
    unfold tdContrib at htd
    simp [this] at htd
  obtain ⟨h1, h2⟩ := registerNew_of_not_mem ov p.namespace_ (p.typedefs.map (·.name))
    (registerAll ov p.namespace_
      (registerAll ov p.namespace_ reg (p.structs.map (·.name))) (p.enums.map (·.name)))
    n d htd'
  constructor
  · rw [h1, namespace_for_registerAll_of_not_mem ov p.namespace_ _ _ n d hen,
      namespace_for_registerAll_of_not_mem ov p.namespace_ _ _ n d hst]
  · rw [h2, contains_registerAll_of_not_mem ov p.namespace_ _ _ n hen,
      contains_registerAll_of_not_mem ov p.namespace_ _ _ n hst]

theorem buildStep_td (ov : List (String × String)) (reg : TypeRegistry) (p : Partition)
    (n d : String) (hse : seContrib p n = false) (htd : tdContrib p n = true)
    (hcont : reg.contains n = false) :
    (buildStep ov reg p).namespace_for n d = ovNs ov n p.namespace_
      ∧ (buildStep ov reg p).contains n = true := by
  unfold buildStep
  have hst : n ∉ p.structs.map (·.name) := by
    intro hm
    have := (any_name_eq_iff_mem_map _ _ _).mpr hm
    unfold seContrib at hse
    simp [this] at hse
  have hen : n ∉ p.enums.map (·.name) := by
    intro hm
    have := (any_name_eq_iff_mem_map _ _ _).mpr hm
    unfold seContrib at hse
    simp [this] at hse
  have htd' : n ∈ p.typedefs.map (·.name) := by
    unfold tdContrib at htd
    exact (any_name_eq_iff_mem_map _ _ _).mp htd
  have hc2 : (registerAll ov p.namespace_
      (registerAll ov p.namespace_ reg (p.structs.map (·.name)))
      (p.enums.map (·.name))).contains n = false := by
    rw [contains_registerAll_of_not_mem ov p.namespace_ _ _ n hen,
      contains_registerAll_of_not_mem ov p.namespace_ _ _ n hst]
    exact hcont
  exact registerNew_of_new_mem ov p.namespace_ (p.typedefs.map (·.name)) _ n d htd' hc2

theorem foldBuild_keep (ov : List (String × String)) (ps : List Partition)
    (reg : TypeRegistry) (n d : String)
    (h : ∀ q ∈ ps, seContrib q n = false) (hcont : reg.contains n = true) :
    (ps.foldl (buildStep ov) reg).namespace_for n d = reg.namespace_for n d
      ∧ (ps.foldl (buildStep ov) reg).contains n = true := by
  induction ps generalizing reg with
  | nil => exact ⟨rfl, hcont⟩
  | cons p rest ih =>
      rw [List.foldl_cons]
      obtain ⟨h1, h2⟩ := buildStep_keep ov reg p n d (h p (List.mem_cons_self _ _)) hcont
      obtain ⟨h3, h4⟩ := ih _ (fun q hq => h q (List.mem_cons_of_mem _ hq)) h2
      exact ⟨h3.trans h1, h4⟩

theorem foldBuild_none (ov : List (String × String)) (ps : List Partition)
    (reg : TypeRegistry) (n d : String)
    (h : ∀ q ∈ ps, seContrib q n = false ∧ tdContrib q n = false) :
    (ps.foldl (buildStep ov) reg).namespace_for n d = reg.namespace_for n d
      ∧ (ps.foldl (buildStep ov) reg).contains n = reg.contains n := by
  induction ps generalizing reg with
  | nil => exact ⟨rfl, rfl⟩
  | cons p rest ih =>
      rw [List.foldl_cons]
      obtain ⟨hse, htd⟩ := h p (List.mem_cons_self _ _)
      obtain ⟨h1, h2⟩ := buildStep_none ov reg p n d hse htd
      obtain ⟨h3, h4⟩ := ih _ (fun q hq => h q (List.mem_cons_of_mem _ hq))
      exact ⟨h3.trans h1, h4.trans h2⟩

/-- Claim C1, as stated, is false: the registry is NOT first-writer-wins for
struct names.  Partitions `A` then `B` both contribute struct `Foo`; the
claim says the registry maps `Foo` to `A`, but `build_type_registry` maps it
to `B` (struct and enum names are registered unconditionally, so the last
writer wins). -/
theorem c1_counterexample :
    (build_type_registry
        [⟨"A", "liba", [⟨"Foo", 4, 4, [], false⟩], [], [], [], []⟩,
         ⟨"B", "libb", [⟨"Foo", 4, 4, [], false⟩], [], [], [], []⟩]
        []).namespace_for "Foo" "dflt" = "B"
      ∧ ("B" : String) ≠ "A" := by
  exact ⟨by decide, by decide⟩

/-- Claim C1 (amended): `build_type_registry` applies first-writer-wins only
to typedef names; struct and enum names are last-writer-wins.  Precisely:
(1) if partition `p` contributes `n` as a struct or enum and no later
partition does, the registry maps `n` to `p`'s namespace (or its configured
override); (2) if `n` is contributed as a typedef by `p`, no earlier
partition contributes `n` at all, and no partition contributes `n` as a
struct or enum, the registry maps `n` to `p`'s namespace (or override);
(3) every registered name maps to exactly one namespace (the lookup is
independent of the caller-supplied default). -/
theorem c1_registry_policy (ov : List (String × String)) (n d : String) :
    (∀ ps1 p ps2, seContrib p n = true → (∀ q ∈ ps2, seContrib q n = false) →
      (build_type_registry (ps1 ++ p :: ps2) ov).namespace_for n d = ovNs ov n p.namespace_)
    ∧ (∀ ps1 p ps2,
        (∀ q ∈ ps1, seContrib q n = false ∧ tdContrib q n = false) →
        tdContrib p n = true → seContrib p n = false →
        (∀ q ∈ ps2, seContrib q n = false) →
        (build_type_registry (ps1 ++ p :: ps2) ov).namespace_for n d = ovNs ov n p.namespace_)
    ∧ (∀ ps d2, (build_type_registry ps ov).contains n = true →
        (build_type_registry ps ov).namespace_for n d
          = (build_type_registry ps ov).namespace_for n d2) := by
  refine ⟨?_, ?_, ?_⟩
  · intro ps1 p ps2 hp hps2
    unfold build_type_registry
    rw [List.foldl_append, List.foldl_cons]
    obtain ⟨h1, h2⟩ := buildStep_se ov _ p n d hp
    obtain ⟨h3, _⟩ := foldBuild_keep ov ps2 _ n d hps2 h2
    exact h3.trans h1
  · intro ps1 p ps2 h1s htd hse hps2
    unfold build_type_registry
    rw [List.foldl_append, List.foldl_cons]
    obtain ⟨_, hb⟩ := foldBuild_none ov ps1 ⟨[]⟩ n d h1s
    have hcf : (ps1.foldl (buildStep ov) ⟨[]⟩).contains n = false := by
      rw [hb]; rfl
    obtain ⟨hc, hd2⟩ := buildStep_td ov _ p n d hse htd hcf
    obtain ⟨he, _⟩ := foldBuild_keep ov ps2 _ n d hps2 hd2
    exact he.trans hc
  · intro ps d2 hcont
    exact namespace_for_eq_of_contains _ n d d2 hcont

/-- Witness for `c1_registry_policy` at a concrete input: a single partition
`A` contributing struct `Foo` makes the registry map `Foo` to `A`. -/
theorem c1_registry_policy_witness :
    (build_type_registry
        [⟨"A", "liba", [⟨"Foo", 4, 4, [], false⟩], [], [], [], []⟩]
        []).namespace_for "Foo" "x" = ovNs [] "Foo" "A" := by
  have h := (c1_registry_policy [] "Foo" "x").1 []
    ⟨"A", "liba", [⟨"Foo", 4, 4, [], false⟩], [], [], [], []⟩ []
    (by decide) (by intro q hq; cases hq)
  exact h

/-- Claim C3 names a real code bug: `seed_registry_from_winmd` claims (in its
own comment) "Only insert if not already registered (local types win)", but
its else-branch re-registers an existing name whenever the existing namespace
is not lexicographically smaller than the external one.  Here the registry
already maps `Foo` to the locally-extracted namespace `zzz`; seeding an
external type `Foo` in namespace `aaa` (filter `a`) overwrites the local
registration. -/
theorem c3_seed_overwrites_local :
    (seed_registry_from_winmd (TypeRegistry.register ⟨[]⟩ "Foo" "zzz")
        [("Foo", "aaa")] "a").namespace_for "Foo" "d" = "aaa"
      ∧ ("aaa" : String) ≠ "zzz" := by
  exact ⟨by decide, by decide⟩

/-- Claim C10 is false only in its registry clause: with a configured
namespace override for the enum's name, the registry maps the name to the
override, not to the last contributing partition's namespace.  Enum `E` is
extracted in partitions `A` and `B` and overridden to `C`. -/
theorem c10_counterexample :
    (build_type_registry
        [⟨"A", "liba", [], [⟨"E", CType.I32, []⟩], [], [], []⟩,
         ⟨"B", "libb", [], [⟨"E", CType.I32, []⟩], [], [], []⟩]
        [("E", "C")]).namespace_for "E" "dflt" = "C"
      ∧ ("C" : String) ≠ "B" := by
  exact ⟨by decide, by decide⟩

/-- Claim C10 (amended): the dedup pass leaves enums, functions and constants
of every partition untouched and keeps exactly the typedefs and structs whose
registry-resolved namespace equals the partition's own; every enum of a
(deduped) partition is emitted as a TypeDef row; and for an enum name
contributed by several partitions the registry maps the name to its
configured override when present, otherwise to the namespace of the last
contributing partition in configuration order. -/
theorem c10_dedup_and_registry :
    (∀ registry p, (dedupPartition registry p).enums = p.enums
      ∧ (dedupPartition registry p).functions = p.functions
      ∧ (dedupPartition registry p).constants = p.constants)
    ∧ (∀ registry p td, td ∈ (dedupPartition registry p).typedefs
        ↔ td ∈ p.typedefs ∧ registry.namespace_for td.name p.namespace_ = p.namespace_)
    ∧ (∀ registry p sd, sd ∈ (dedupPartition registry p).structs
        ↔ sd ∈ p.structs ∧ registry.namespace_for sd.name p.namespace_ = p.namespace_)
    ∧ (∀ p e, e ∈ p.enums → (p.namespace_, e.name) ∈ emittedTypeDefRows p)
    ∧ (∀ (ov : List (String × String)) (n d : String) ps1 p ps2,
        enumContrib p n = true → (∀ q ∈ ps2, seContrib q n = false) →
        (build_type_registry (ps1 ++ p :: ps2) ov).namespace_for n d
          = ovNs ov n p.namespace_) := by
  refine ⟨?_, ?_, ?_, ?_, ?_⟩
  · intro registry p
    exact ⟨rfl, rfl, rfl⟩
  · intro registry p td
    simp [dedupPartition, List.mem_filter]
  · intro registry p sd
    simp [dedupPartition, List.mem_filter]
  · intro p e he
    exact List.mem_append_left _ (List.mem_append_left _
      (List.mem_append_left _ (List.mem_map_of_mem _ he)))
  · intro ov n d ps1 p ps2 hen hps2
    have hse : seContrib p n = true := by
      unfold seContrib
      unfold enumContrib at hen
      simp [hen]
    unfold build_type_registry
    rw [List.foldl_append, List.foldl_cons]
    obtain ⟨h1, h2⟩ := buildStep_se ov _ p n d hse
    obtain ⟨h3, _⟩ := foldBuild_keep ov ps2 _ n d hps2 h2
    exact h3.trans h1

/-- Witness for `c10_dedup_and_registry`: enum `E` extracted in partitions
`A` and `B` (no override) leaves the registry mapping `E` to `B`, the last
contributing partition. -/
theorem c10_dedup_and_registry_witness :
    (build_type_registry
        [⟨"A", "liba", [], [⟨"E", CType.I32, []⟩], [], [], []⟩,
         ⟨"B", "libb", [], [⟨"E", CType.I32, []⟩], [], [], []⟩]
        []).namespace_for "E" "d" = ovNs [] "E" "B" := by
  have h := c10_dedup_and_registry.2.2.2.2 [] "E" "d"
      [⟨"A", "liba", [], [⟨"E", CType.I32, []⟩], [], [], []⟩]
      ⟨"B", "libb", [], [⟨"E", CType.I32, []⟩], [], [], []⟩ []
      (by decide) (by intro q hq; cases hq)
  exact h

/-! ### Validation lemmas -/

mutual

theorem collect_eq_nil_iff (registry : TypeRegistry) (pns ctx : String) :
    (t : CType) →
      (collect_unresolved registry pns ctx t = [] ↔ ctypeResolved registry t = true)
  | .Void => by simp [collect_unresolved, ctypeResolved]
  | .Bool => by simp [collect_unresolved, ctypeResolved]
  | .I8 => by simp [collect_unresolved, ctypeResolved]
  | .U8 => by simp [collect_unresolved, ctypeResolved]
  | .I16 => by simp [collect_unresolved, ctypeResolved]
  | .U16 => by simp [collect_unresolved, ctypeResolved]
  | .I32 => by simp [collect_unresolved, ctypeResolved]
  | .U32 => by simp [collect_unresolved, ctypeResolved]
  | .I64 => by simp [collect_unresolved, ctypeResolved]
  | .U64 => by simp [collect_unresolved, ctypeResolved]
  | .F32 => by simp [collect_unresolved, ctypeResolved]
  | .F64 => by simp [collect_unresolved, ctypeResolved]
  | .ISize => by simp [collect_unresolved, ctypeResolved]
  | .USize => by simp [collect_unresolved, ctypeResolved]
  | .Ptr pointee c => by
      simpa [collect_unresolved, ctypeResolved] using
        collect_eq_nil_iff registry pns ctx pointee
  | .Array element len => by
      simpa [collect_unresolved, ctypeResolved] using
        collect_eq_nil_iff registry pns ctx element
  | .Named name resolved => by
      cases resolved with
      | none =>
          cases hc : registry.contains name with
          | true => simp [collect_unresolved, ctypeResolved, hc]
          | false => simp [collect_unresolved, ctypeResolved, hc]
      | some r => simp [collect_unresolved, ctypeResolved]
  | .FnPtr return_type params cc => by
      simp [collect_unresolved, ctypeResolved, List.append_eq_nil,
        collect_eq_nil_iff registry pns ctx return_type,
        collectList_eq_nil_iff registry pns ctx params]

theorem collectList_eq_nil_iff (registry : TypeRegistry) (pns ctx : String) :
    (l : List CType) →
      (collectUnresolvedList registry pns ctx l = []
        ↔ ctypeResolvedList registry l = true)
  | [] => by simp [collectUnresolvedList, ctypeResolvedList]
  | t :: ts => by
      simp [collectUnresolvedList, ctypeResolvedList, List.append_eq_nil,
        collect_eq_nil_iff registry pns ctx t,
        collectList_eq_nil_iff registry pns ctx ts]

end

theorem partitionUnresolved_eq_nil_iff (registry : TypeRegistry) (p : Partition) :
    partitionUnresolved registry p = []
      ↔ ((∀ s ∈ p.structs, ∀ field ∈ s.fields, ctypeResolved registry field.ty = true)
        ∧ (∀ f ∈ p.functions, ctypeResolved registry f.return_type = true
            ∧ ∀ param ∈ f.params, ctypeResolved registry param.ty = true)
        ∧ (∀ td ∈ p.typedefs, ctypeResolved registry td.underlying_type = true)) := by
  unfold partitionUnresolved
  simp only [List.append_eq_nil, List.flatMap_eq_nil_iff, collect_eq_nil_iff]
  tauto

theorem dedupFirstByName_mem_names (seen : List String) (l : List UnresolvedRef)
    (nm : String) :
    nm ∈ (dedupFirstByName seen l).map (·.type_name)
      ↔ (nm ∈ l.map (·.type_name) ∧ nm ∉ seen) := by
  induction l generalizing seen with
  | nil => simp [dedupFirstByName]
  | cons r rs ih =>
      by_cases hseen : r.type_name ∈ seen
      · rw [dedupFirstByName, if_pos hseen]
        rw [ih seen]
        simp only [List.map_cons, List.mem_cons]
        constructor
        · rintro ⟨h1, h2⟩
          exact ⟨Or.inr h1, h2⟩
        · rintro ⟨h1 | h1, h2⟩
          · exact absurd (h1 ▸ hseen) h2
          · exact ⟨h1, h2⟩
      · rw [dedupFirstByName, if_neg hseen]
        simp only [List.map_cons, List.mem_cons]
        rw [ih (r.type_name :: seen)]
        simp only [List.mem_cons]
        constructor
        · rintro (h | ⟨h1, h2⟩)
          · exact ⟨Or.inl h, h ▸ hseen⟩
          · exact ⟨Or.inr h1, fun hm => h2 (Or.inr hm)⟩
        · rintro ⟨h1 | h1, h2⟩
          · exact Or.inl h1
          · by_cases he : nm = r.type_name
            · exact Or.inl he
            · exact Or.inr ⟨h1, fun hm => hm.elim he h2⟩

theorem dedupFirstByName_nodup (seen : List String) (l : List UnresolvedRef) :
    ((dedupFirstByName seen l).map (·.type_name)).Nodup := by
  induction l generalizing seen with
  | nil => simp [dedupFirstByName]
  | cons r rs ih =>
      by_cases hseen : r.type_name ∈ seen
      · rw [dedupFirstByName, if_pos hseen]
        exact ih seen
      · rw [dedupFirstByName, if_neg hseen]
        simp only [List.map_cons, List.nodup_cons]
        refine ⟨?_, ih (r.type_name :: seen)⟩
        intro hmem
        have := (dedupFirstByName_mem_names (r.type_name :: seen) rs r.type_name).mp hmem
        exact this.2 (List.mem_cons_self _ _)

theorem dedupFirstByName_find (seen : List String) (l : List UnresolvedRef)
    (r : UnresolvedRef) (hr : r ∈ dedupFirstByName seen l) :
    l.find? (fun x => x.type_name == r.type_name) = some r := by
  induction l generalizing seen with
  | nil => cases hr
  | cons h t ih =>
      have hr_not_seen : r.type_name ∉ seen := by
        have hmem : r.type_name ∈ (dedupFirstByName seen (h :: t)).map (·.type_name) :=
          List.mem_map_of_mem _ hr
        exact ((dedupFirstByName_mem_names seen (h :: t) r.type_name).mp hmem).2
      by_cases hseen : h.type_name ∈ seen
      · rw [dedupFirstByName, if_pos hseen] at hr
        have hbe : (h.type_name == r.type_name) = false := by
          cases hbe2 : (h.type_name == r.type_name) with
          | false => rfl
          | true => exact absurd ((beq_iff_eq.mp hbe2) ▸ hseen) hr_not_seen
        rw [List.find?_cons, hbe]
        exact ih seen hr
      · rw [dedupFirstByName, if_neg hseen] at hr
        rcases List.mem_cons.mp hr with hcase | hcase
        · subst hcase
          exact List.find?_cons_of_pos _ (by simp)
        · have hr_not_seen2 : r.type_name ∉ h.type_name :: seen := by
            have hmem : r.type_name
                ∈ (dedupFirstByName (h.type_name :: seen) t).map (·.type_name) :=
              List.mem_map_of_mem _ hcase
            exact ((dedupFirstByName_mem_names _ t r.type_name).mp hmem).2
          have hbe : (h.type_name == r.type_name) = false := by
            cases hbe2 : (h.type_name == r.type_name) with
            | false => rfl
            | true =>
                exact absurd ((beq_iff_eq.mp hbe2) ▸ List.mem_cons_self _ _) hr_not_seen2
          rw [List.find?_cons, hbe]
          exact ih (h.type_name :: seen) hcase

/-- Claim C4: `validate_type_references` succeeds iff every
`Named { resolved: None }` reachable from any partition's struct fields,
function return/parameter types, or typedef underlying types is present in
the registry; on failure, the combined error lists each missing type name
exactly once (deduplicated, covering precisely the missing names), and each
reported entry is the first collected usage of that name (its context/
partition are the first usage's). -/
theorem c4_validate_correct (partitions : List Partition) (registry : TypeRegistry) :
    (validate_type_references partitions registry = .ok ()
      ↔ ∀ p ∈ partitions,
        (∀ s ∈ p.structs, ∀ field ∈ s.fields, ctypeResolved registry field.ty = true)
        ∧ (∀ f ∈ p.functions, ctypeResolved registry f.return_type = true
            ∧ ∀ param ∈ f.params, ctypeResolved registry param.ty = true)
        ∧ (∀ td ∈ p.typedefs, ctypeResolved registry td.underlying_type = true))
    ∧ (∀ e, validate_type_references partitions registry = .error e →
        (e.map (·.type_name)).Nodup
        ∧ (∀ nm, nm ∈ e.map (·.type_name)
            ↔ nm ∈ (allUnresolved registry partitions).map (·.type_name))
        ∧ (∀ r ∈ e, (allUnresolved registry partitions).find?
            (fun x => x.type_name == r.type_name) = some r)) := by
  constructor
  · unfold validate_type_references
    by_cases hemp : (allUnresolved registry partitions).isEmpty
    · simp only [hemp, if_pos]
      constructor
      · intro _
        have hnil : allUnresolved registry partitions = [] := by
          rwa [List.isEmpty_iff] at hemp
        intro p hp
        have := (List.flatMap_eq_nil_iff.mp hnil) p hp
        exact (partitionUnresolved_eq_nil_iff registry p).mp this
      · intro _
        trivial
    · simp only [hemp, if_neg, Bool.false_eq_true, not_false_iff]
      constructor
      · intro h
        cases h
      · intro h
        exfalso
        apply hemp
        rw [List.isEmpty_iff]
        apply List.flatMap_eq_nil_iff.mpr
        intro p hp
        exact (partitionUnresolved_eq_nil_iff registry p).mpr (h p hp)
  · intro e he
    unfold validate_type_references at he
    by_cases hemp : (allUnresolved registry partitions).isEmpty
    · simp only [hemp, if_pos] at he
      cases he
    · simp only [hemp, if_neg, Bool.false_eq_true, not_false_iff] at he
      have hee : e = dedupFirstByName [] (allUnresolved registry partitions) := by
        injection he with h
        exact h.symm
      subst hee
      refine ⟨dedupFirstByName_nodup [] _, ?_, ?_⟩
      · intro nm
        rw [dedupFirstByName_mem_names]
        simp
      · intro r hr
        exact dedupFirstByName_find [] _ r hr

/-- Witness for `c4_validate_correct`: the spec's scenario 7 — a function
`use_external` taking `DefinedElsewhere *p` with an empty registry fails
validation with exactly one unresolved entry naming `DefinedElsewhere` and
its first usage context, and that list is duplicate-free. -/
theorem c4_validate_correct_witness :
    validate_type_references
        [⟨"NS", "lib", [], [],
          [⟨"use_external", CType.Void,
            [⟨"p", CType.Ptr (CType.Named "DefinedElsewhere" none) false⟩],
            CallConv.Cdecl⟩],
          [], []⟩] ⟨[]⟩
      = .error [⟨"DefinedElsewhere", "NS", "param `p` of function `use_external`"⟩]
    ∧ (([⟨"DefinedElsewhere", "NS", "param `p` of function `use_external`"⟩] :
        List UnresolvedRef).map (·.type_name)).Nodup := by
  have hval : validate_type_references
      [⟨"NS", "lib", [], [],
        [⟨"use_external", CType.Void,
          [⟨"p", CType.Ptr (CType.Named "DefinedElsewhere" none) false⟩],
          CallConv.Cdecl⟩],
        [], []⟩] ⟨[]⟩
      = .error [⟨"DefinedElsewhere", "NS", "param `p` of function `use_external`"⟩] := by
    simp [validate_type_references, allUnresolved, partitionUnresolved,
      collect_unresolved, collectUnresolvedList, dedupFirstByName,
      TypeRegistry.contains]
  have h := (c4_validate_correct
      [⟨"NS", "lib", [], [],
        [⟨"use_external", CType.Void,
          [⟨"p", CType.Ptr (CType.Named "DefinedElsewhere" none) false⟩],
          CallConv.Cdecl⟩],
        [], []⟩] ⟨[]⟩).2
      [⟨"DefinedElsewhere", "NS", "param `p` of function `use_external`"⟩] hval
  exact ⟨hval, h.1⟩

/-! ### Pointer mutability (C2), typedef emission (C5), decay (C9) -/

theorem noPtrConst_wintype (ns : String) (registry : TypeRegistry) :
    (t : CType) → noPtrConst (ctype_to_wintype t ns registry) = true
  | .Void => by simp [ctype_to_wintype, noPtrConst]
  | .Bool => by simp [ctype_to_wintype, noPtrConst]
  | .I8 => by simp [ctype_to_wintype, noPtrConst]
  | .U8 => by simp [ctype_to_wintype, noPtrConst]
  | .I16 => by simp [ctype_to_wintype, noPtrConst]
  | .U16 => by simp [ctype_to_wintype, noPtrConst]
  | .I32 => by simp [ctype_to_wintype, noPtrConst]
  | .U32 => by simp [ctype_to_wintype, noPtrConst]
  | .I64 => by simp [ctype_to_wintype, noPtrConst]
  | .U64 => by simp [ctype_to_wintype, noPtrConst]
  | .F32 => by simp [ctype_to_wintype, noPtrConst]
  | .F64 => by simp [ctype_to_wintype, noPtrConst]
  | .ISize => by simp [ctype_to_wintype, noPtrConst]
  | .USize => by simp [ctype_to_wintype, noPtrConst]
  | .Ptr pointee c => by
      simp [ctype_to_wintype, noPtrConst, noPtrConst_wintype ns registry pointee]
  | .Array element len => by
      simp [ctype_to_wintype, noPtrConst, noPtrConst_wintype ns registry element]
  | .Named name none => by simp [ctype_to_wintype, noPtrConst]
  | .Named name (some r) => by
      by_cases hc : registry.contains name
      · simp [ctype_to_wintype, noPtrConst, hc]
      · simp [ctype_to_wintype, hc, noPtrConst_wintype ns registry r]
  | .FnPtr a b c => by simp [ctype_to_wintype, noPtrConst]

theorem emitParamRecords_getElem (f : FunctionDef) (i : Nat) (p : ParamDef)
    (h : f.params[i]? = some p) :
    (emitParamRecords f)[i]? = some (p.name, i + 1, isOuterPtrMut p.ty) := by
  simp [emitParamRecords, List.getElem?_map, List.getElem?_enum, h]

/-- Claim C2: on every emitted parameter record the output flag is set iff
the parameter's outermost pointer type is a non-const pointer, while the type
blob encodes every pointer — at every nesting depth — as mutable (`PtrMut`;
no `PtrConst` ever occurs in an emitted blob, and a pointer `CType` maps to
`PtrMut` regardless of its constness). -/
theorem c2_pointer_mutability (ns : String) (registry : TypeRegistry) (f : FunctionDef) :
    (∀ p ∈ f.params, (isOuterPtrMut p.ty = true ↔ ∃ t, p.ty = CType.Ptr t false))
    ∧ (∀ (i : Nat) (p : ParamDef), f.params[i]? = some p →
        (emitParamRecords f)[i]? = some (p.name, i + 1, isOuterPtrMut p.ty))
    ∧ (∀ (t : CType) (c : Bool),
        ctype_to_wintype (CType.Ptr t c) ns registry
          = WinType.PtrMut (ctype_to_wintype t ns registry) 1)
    ∧ (∀ p ∈ f.params, noPtrConst (ctype_to_wintype p.ty ns registry) = true)
    ∧ noPtrConst (ctype_to_wintype f.return_type ns registry) = true := by
  refine ⟨?_, ?_, ?_, ?_, ?_⟩
  · intro p _
    cases hty : p.ty <;> simp [isOuterPtrMut]
  · intro i p h
    exact emitParamRecords_getElem f i p h
  · intro t c
    simp [ctype_to_wintype]
  · intro p _
    exact noPtrConst_wintype ns registry p.ty
  · exact noPtrConst_wintype ns registry f.return_type

/-- Witness for `c2_pointer_mutability` on the spec's `create_widget`
scenario: the const `name` parameter gets no output flag, the mutable `out`
parameter does, and a const pointer still emits a `PtrMut` blob. -/
theorem c2_pointer_mutability_witness :
    (emitParamRecords ⟨"create_widget", CType.I32,
        [⟨"name", CType.Ptr CType.I8 true⟩,
         ⟨"out", CType.Ptr (CType.Named "Widget" none) false⟩], CallConv.Cdecl⟩)[0]?
      = some ("name", 1, false)
    ∧ (emitParamRecords ⟨"create_widget", CType.I32,
        [⟨"name", CType.Ptr CType.I8 true⟩,
         ⟨"out", CType.Ptr (CType.Named "Widget" none) false⟩], CallConv.Cdecl⟩)[1]?
      = some ("out", 2, true)
    ∧ ctype_to_wintype (CType.Ptr CType.I8 true) "NS" ⟨[]⟩
      = WinType.PtrMut (ctype_to_wintype CType.I8 "NS" ⟨[]⟩) 1
    ∧ noPtrConst (ctype_to_wintype (CType.Ptr CType.I8 true) "NS" ⟨[]⟩) = true := by
  have h := c2_pointer_mutability "NS" ⟨[]⟩
    ⟨"create_widget", CType.I32,
      [⟨"name", CType.Ptr CType.I8 true⟩,
       ⟨"out", CType.Ptr (CType.Named "Widget" none) false⟩], CallConv.Cdecl⟩
  refine ⟨h.2.1 0 ⟨"name", CType.Ptr CType.I8 true⟩ rfl, ?_,
    h.2.2.1 CType.I8 true,
    h.2.2.2.1 ⟨"name", CType.Ptr CType.I8 true⟩ (List.mem_cons_self _ _)⟩
  exact h.2.1 1 ⟨"out", CType.Ptr (CType.Named "Widget" none) false⟩ rfl

/-- Claim C5: `emit_typedef` emits a typedef whose underlying type is a
function prototype — a `FnPtr` directly, or a `Ptr` whose pointee is a
`FnPtr` — as a delegate with an `Invoke` method carrying the prototype's
signature; every other typedef becomes a wrapper struct with a single field
named `Value` of the underlying type, except that `Void` yields a
pointer-sized-integer (`ISize`) field. -/
theorem c5_emit_typedef_classification (ns : String) (registry : TypeRegistry)
    (td : TypedefDef) :
    (∀ rt ps cc, td.underlying_type = CType.FnPtr rt ps cc →
      emit_typedef ns td registry
        = .delegate td.name "Invoke" (ctype_to_wintype rt ns registry)
            (ps.map (fun p => ctype_to_wintype p ns registry)))
    ∧ (∀ rt ps cc c, td.underlying_type = CType.Ptr (CType.FnPtr rt ps cc) c →
      emit_typedef ns td registry
        = .delegate td.name "Invoke" (ctype_to_wintype rt ns registry)
            (ps.map (fun p => ctype_to_wintype p ns registry)))
    ∧ (td.underlying_type = CType.Void →
      emit_typedef ns td registry = .wrapper td.name "Value" WinType.ISize)
    ∧ (typedefFnProto td.underlying_type = none → isVoidTy td.underlying_type = false →
      emit_typedef ns td registry
        = .wrapper td.name "Value" (ctype_to_wintype td.underlying_type ns registry)) := by
  refine ⟨?_, ?_, ?_, ?_⟩
  · intro rt ps cc h
    unfold emit_typedef
    rw [h]
    simp [typedefFnProto]
  · intro rt ps cc c h
    unfold emit_typedef
    rw [h]
    simp [typedefFnProto]
  · intro h
    unfold emit_typedef
    rw [h]
    simp [typedefFnProto, isVoidTy]
  · intro hproto hvoid
    unfold emit_typedef
    rw [hproto, hvoid]
    simp

/-- Witness for `c5_emit_typedef_classification`: a function-pointer typedef
(`Ptr` to `FnPtr`) becomes a delegate with an `Invoke` method; an opaque
`Void` typedef becomes an `ISize`-field wrapper; an `I32` typedef becomes a
wrapper whose `Value` field is the mapped underlying type. -/
theorem c5_emit_typedef_classification_witness :
    emit_typedef "NS"
        ⟨"callback_t", CType.Ptr (CType.FnPtr CType.Void [CType.I32] CallConv.Cdecl) false⟩
        ⟨[]⟩
      = .delegate "callback_t" "Invoke" (ctype_to_wintype CType.Void "NS" ⟨[]⟩)
          ([CType.I32].map (fun p => ctype_to_wintype p "NS" ⟨[]⟩))
    ∧ emit_typedef "NS" ⟨"DIR", CType.Void⟩ ⟨[]⟩ = .wrapper "DIR" "Value" WinType.ISize
    ∧ emit_typedef "NS" ⟨"Color", CType.I32⟩ ⟨[]⟩
      = .wrapper "Color" "Value" (ctype_to_wintype CType.I32 "NS" ⟨[]⟩) := by
  refine ⟨?_, ?_, ?_⟩
  · exact (c5_emit_typedef_classification "NS" ⟨[]⟩
      ⟨"callback_t", CType.Ptr (CType.FnPtr CType.Void [CType.I32] CallConv.Cdecl) false⟩).2.1
      CType.Void [CType.I32] CallConv.Cdecl false rfl
  · exact (c5_emit_typedef_classification "NS" ⟨[]⟩ ⟨"DIR", CType.Void⟩).2.2.1 rfl
  · exact (c5_emit_typedef_classification "NS" ⟨[]⟩ ⟨"Color", CType.I32⟩).2.2.2 rfl rfl

/-- Claim C9: every function parameter whose extracted type is an `Array`
decays to `Ptr { pointee: element, is_const: false }` regardless of the
element type, and such a decayed parameter always receives the output flag
on its emitted parameter record. -/
theorem c9_array_decay (e : CType) (n : Nat) (f : FunctionDef) :
    decayParam (CType.Array e n) = CType.Ptr e false
    ∧ isOuterPtrMut (decayParam (CType.Array e n)) = true
    ∧ (∀ (i : Nat) (p : ParamDef), f.params[i]? = some p →
        p.ty = decayParam (CType.Array e n) →
        (emitParamRecords f)[i]? = some (p.name, i + 1, true)) := by
  refine ⟨rfl, rfl, ?_⟩
  intro i p hi hty
  have h := emitParamRecords_getElem f i p hi
  rw [hty] at h
  exact h

/-- Witness for `c9_array_decay` on `const struct timespec times[2]`: the
array parameter decays to a mutable pointer and its record carries the
output flag. -/
theorem c9_array_decay_witness :
    decayParam (CType.Array (CType.Named "timespec" none) 2)
      = CType.Ptr (CType.Named "timespec" none) false
    ∧ (emitParamRecords ⟨"utimensat", CType.Void,
        [⟨"times", CType.Ptr (CType.Named "timespec" none) false⟩],
        CallConv.Cdecl⟩)[0]?
      = some ("times", 1, true) := by
  have h := c9_array_decay (CType.Named "timespec" none) 2
    ⟨"utimensat", CType.Void,
      [⟨"times", CType.Ptr (CType.Named "timespec" none) false⟩], CallConv.Cdecl⟩
  exact ⟨h.1, h.2.2 0 ⟨"times", CType.Ptr (CType.Named "timespec" none) false⟩ rfl rfl⟩

/-! ### Constant emission (C6) and header resolution (C8) -/

/-- Claim C6, as stated, is false in its value clause: a `Signed` constant is
emitted as 32-bit signed, but the attached value is the i64 value truncated
to 32 bits, not the constant's value.  `Signed (2^40)` attaches `0`. -/
theorem c6_counterexample :
    emit_constant ⟨"BIG", ConstantValue.Signed (2 ^ 40)⟩ = (WinType.I32, WinValue.I32 0)
    ∧ (2 ^ 40 : Int) ≠ 0 := by
  have h0 : toI32 1099511627776 = 0 := by decide
  constructor
  · simp [emit_constant, h0]
  · decide

/-- Claim C6 (amended): `emit_constant` chooses the metadata type by value —
Signed → 32-bit signed with the value wrapped into the i32 range (congruent
mod 2^32), Unsigned fitting 32 bits → 32-bit unsigned with the exact value,
larger Unsigned → 64-bit unsigned with the exact value, Float → 64-bit float
with the exact value — attached to the static literal field. -/
theorem c6_emit_constant_types (c : ConstantDef) :
    (∀ v, c.value = ConstantValue.Signed v →
      emit_constant c = (WinType.I32, WinValue.I32 (toI32 v))
      ∧ toI32 v % 2 ^ 32 = v % 2 ^ 32 ∧ -2 ^ 31 ≤ toI32 v ∧ toI32 v < 2 ^ 31)
    ∧ (∀ v, c.value = ConstantValue.Unsigned v →
        (v ≤ 4294967295 → emit_constant c = (WinType.U32, WinValue.U32 v))
        ∧ (4294967295 < v → emit_constant c = (WinType.U64, WinValue.U64 v)))
    ∧ (∀ x, c.value = ConstantValue.Float x →
        emit_constant c = (WinType.F64, WinValue.F64 x)) := by
  obtain ⟨nm, val⟩ := c
  refine ⟨?_, ?_, ?_⟩
  · intro v hv
    simp only at hv
    subst hv
    refine ⟨rfl, ?_, ?_, ?_⟩ <;> · unfold toI32; omega
  · intro v hv
    simp only at hv
    subst hv
    constructor
    · intro hle
      simp [emit_constant, hle]
    · intro hlt
      simp [emit_constant, Nat.not_le.mpr hlt, Nat.not_le_of_lt hlt]
  · intro x hv
    simp only at hv
    subst hv
    rfl

/-- Witness for `c6_emit_constant_types`: `MAX_WIDGETS = 256` emits as a
32-bit signed literal; an unsigned value above 32 bits emits as 64-bit
unsigned. -/
theorem c6_emit_constant_types_witness :
    emit_constant ⟨"MAX_WIDGETS", ConstantValue.Signed 256⟩
      = (WinType.I32, WinValue.I32 (toI32 256))
    ∧ emit_constant ⟨"BIGU", ConstantValue.Unsigned (2 ^ 40)⟩
      = (WinType.U64, WinValue.U64 (2 ^ 40)) := by
  have h1 := (c6_emit_constant_types ⟨"MAX_WIDGETS", ConstantValue.Signed 256⟩).1 256 rfl
  have h2 := ((c6_emit_constant_types ⟨"BIGU", ConstantValue.Unsigned (2 ^ 40)⟩).2.1
    (2 ^ 40) rfl).2 (by norm_num)
  exact ⟨h1.1, h2⟩

theorem find?_append_first_none {α : Type} (p : α → Bool) (l1 l2 : List α)
    (h : ∀ x ∈ l1, p x = false) : (l1 ++ l2).find? p = l2.find? p := by
  induction l1 with
  | nil => rfl
  | cons a t ih =>
      rw [List.cons_append, List.find?_cons, h a (List.mem_cons_self _ _)]
      exact ih (fun x hx => h x (List.mem_cons_of_mem _ hx))

/-- Claim C8, as stated, is false in its fallback clause: a relative path
that resolves nowhere is NOT passed through unmodified — `resolve_header`
returns `base_dir.join(path)`. -/
theorem c8_counterexample :
    resolve_header (fun _ => false) "missing.h" "/cfg" [] = "/cfg/missing.h"
    ∧ ("/cfg/missing.h" : String) ≠ "missing.h" := by
  exact ⟨by decide, by decide⟩

/-- Claim C8 (amended): `resolve_header` returns an absolute path unchanged;
a relative path resolves to the config directory joined with it when that
exists, else to the first `include_paths` entry (in order) whose join
exists; a path that resolves nowhere falls back to the config directory
joined with the path (so the front-end reports that joined path). -/
theorem c8_resolve_header (ex : String → Bool) (path base_dir : String)
    (include_paths : List String) :
    (isAbsolutePath path = true →
      resolve_header ex path base_dir include_paths = path)
    ∧ (isAbsolutePath path = false → ex (joinPath base_dir path) = true →
        resolve_header ex path base_dir include_paths = joinPath base_dir path)
    ∧ (isAbsolutePath path = false → ex (joinPath base_dir path) = false →
        ∀ incs1 inc incs2, include_paths = incs1 ++ inc :: incs2 →
          (∀ i ∈ incs1, ex (joinPath i path) = false) →
          ex (joinPath inc path) = true →
          resolve_header ex path base_dir include_paths = joinPath inc path)
    ∧ (isAbsolutePath path = false → ex (joinPath base_dir path) = false →
        (∀ i ∈ include_paths, ex (joinPath i path) = false) →
        resolve_header ex path base_dir include_paths = joinPath base_dir path) := by
  refine ⟨?_, ?_, ?_, ?_⟩
  · intro habs
    simp [resolve_header, habs]
  · intro habs hex
    simp [resolve_header, habs, hex]
  · intro habs hex incs1 inc incs2 heq hnone hinc
    subst heq
    have hfind : (incs1 ++ inc :: incs2).find? (fun i => ex (joinPath i path))
        = some inc := by
      rw [find?_append_first_none _ incs1 _ hnone, List.find?_cons, hinc]
    simp [resolve_header, habs, hex, hfind]
  · intro habs hex hnone
    have hfind : include_paths.find? (fun i => ex (joinPath i path)) = none :=
      List.find?_eq_none.mpr (fun i hi => by simp [hnone i hi])
    simp [resolve_header, habs, hex, hfind]

/-- Witness for `c8_resolve_header`: `h.h` is absent from the config
directory `/cfg` but present under the include path `/inc`, so it resolves
to `/inc/h.h`. -/
theorem c8_resolve_header_witness :
    resolve_header (fun s => s == "/inc/h.h") "h.h" "/cfg" ["/inc"] = "/inc/h.h" := by
  have h := (c8_resolve_header (fun s => s == "/inc/h.h") "h.h" "/cfg" ["/inc"]).2.2.1
    (by decide) (by decide) [] "/inc" [] rfl (by intro i hi; cases hi) (by decide)
  exact h

/-! ### Macro-constant parsing (C7) -/

theorem char_le_toNat (a b : Char) : a ≤ b ↔ a.toNat ≤ b.toNat := by
  rw [Char.le_def]
  exact ge_iff_le

theorem u32_le_toNat (a b : UInt32) : a ≤ b ↔ a.toNat ≤ b.toNat :=
  ge_iff_le

theorem digitVal_16_eq_none (c : Char) (h : isHexDigitCh c = false) :
    digitVal 16 c = none := by
  have e0 : ('0' : Char).toNat = 48 := rfl
  have e9 : ('9' : Char).toNat = 57 := rfl
  have ea : ('a' : Char).toNat = 97 := rfl
  have ez : ('z' : Char).toNat = 122 := rfl
  have ef : ('f' : Char).toNat = 102 := rfl
  have eA : ('A' : Char).toNat = 65 := rfl
  have eZ : ('Z' : Char).toNat = 90 := rfl
  have eF : ('F' : Char).toNat = 70 := rfl
  have u48 : (48 : UInt32).toNat = 48 := rfl
  have u55 : (55 : UInt32).toNat = 55 := rfl
  have u57 : (57 : UInt32).toNat = 57 := rfl
  have u65 : (65 : UInt32).toNat = 65 := rfl
  have u70 : (70 : UInt32).toNat = 70 := rfl
  have u90 : (90 : UInt32).toNat = 90 := rfl
  have u97 : (97 : UInt32).toNat = 97 := rfl
  have u102 : (102 : UInt32).toNat = 102 := rfl
  have u122 : (122 : UInt32).toNat = 122 := rfl
  have uval : c.val.toNat = c.toNat := rfl
  unfold isHexDigitCh at h
  simp only [char_le_toNat, e0, e9, ea, ef, eA, eF, Bool.or_eq_false_iff,
    Bool.and_eq_false_iff, decide_eq_false_iff_not, not_le, ge_iff_le,
    u32_le_toNat, u48, u55, u57, u65, u70, u90, u97, u102, u122, uval] at h
  unfold digitVal
  simp only [char_le_toNat, e0, e9, ea, ez, eA, eZ]
  split_ifs <;> first | rfl | (exfalso; omega)

theorem digitVal_8_eq_none (c : Char) (hd : c.isDigit = true) (h : isOctDigitCh c = false) :
    digitVal 8 c = none := by
  have e0 : ('0' : Char).toNat = 48 := rfl
  have e9 : ('9' : Char).toNat = 57 := rfl
  have e7 : ('7' : Char).toNat = 55 := rfl
  have ea : ('a' : Char).toNat = 97 := rfl
  have ez : ('z' : Char).toNat = 122 := rfl
  have eA : ('A' : Char).toNat = 65 := rfl
  have eZ : ('Z' : Char).toNat = 90 := rfl
  have u48 : (48 : UInt32).toNat = 48 := rfl
  have u55 : (55 : UInt32).toNat = 55 := rfl
  have u57 : (57 : UInt32).toNat = 57 := rfl
  have u65 : (65 : UInt32).toNat = 65 := rfl
  have u70 : (70 : UInt32).toNat = 70 := rfl
  have u90 : (90 : UInt32).toNat = 90 := rfl
  have u97 : (97 : UInt32).toNat = 97 := rfl
  have u102 : (102 : UInt32).toNat = 102 := rfl
  have u122 : (122 : UInt32).toNat = 122 := rfl
  have uval : c.val.toNat = c.toNat := rfl
  unfold isOctDigitCh at h
  unfold Char.isDigit at hd
  simp only [char_le_toNat, e0, e9, e7, Bool.and_eq_false_iff, Bool.and_eq_true,
    decide_eq_false_iff_not, decide_eq_true_eq, not_le, ge_iff_le,
    u32_le_toNat, u48, u55, u57, u65, u70, u90, u97, u102, u122, uval] at h hd
  unfold digitVal
  simp only [char_le_toNat, e0, e9, ea, ez, eA, eZ]
  split_ifs <;> first | rfl | (exfalso; omega)

theorem digitVal_10_eq_none (c : Char) (h : c.isDigit = false) : digitVal 10 c = none := by
  have e0 : ('0' : Char).toNat = 48 := rfl
  have e9 : ('9' : Char).toNat = 57 := rfl
  have ea : ('a' : Char).toNat = 97 := rfl
  have ez : ('z' : Char).toNat = 122 := rfl
  have eA : ('A' : Char).toNat = 65 := rfl
  have eZ : ('Z' : Char).toNat = 90 := rfl
  have u48 : (48 : UInt32).toNat = 48 := rfl
  have u55 : (55 : UInt32).toNat = 55 := rfl
  have u57 : (57 : UInt32).toNat = 57 := rfl
  have u65 : (65 : UInt32).toNat = 65 := rfl
  have u70 : (70 : UInt32).toNat = 70 := rfl
  have u90 : (90 : UInt32).toNat = 90 := rfl
  have u97 : (97 : UInt32).toNat = 97 := rfl
  have u102 : (102 : UInt32).toNat = 102 := rfl
  have u122 : (122 : UInt32).toNat = 122 := rfl
  have uval : c.val.toNat = c.toNat := rfl
  unfold Char.isDigit at h
  simp only [char_le_toNat, e0, e9, Bool.and_eq_false_iff,
    decide_eq_false_iff_not, not_le, ge_iff_le,
    u32_le_toNat, u48, u55, u57, u65, u70, u90, u97, u102, u122, uval] at h
  unfold digitVal
  simp only [char_le_toNat, e0, e9, ea, ez, eA, eZ]
  split_ifs <;> first | rfl | (exfalso; omega)

theorem digitsAccGo_none (radix : Nat) (cs : List Char) :
    digitsAccGo radix none cs = none := by
  induction cs with
  | nil => rfl
  | cons c rest ih =>
      show digitsAccGo radix none rest = none
      exact ih

theorem digitsAccGo_bad (radix : Nat) (x : Char) (hdig : digitVal radix x = none)
    (cs : List Char) (hx : x ∈ cs) : ∀ acc, digitsAccGo radix acc cs = none := by
  induction cs with
  | nil => cases hx
  | cons c rest ih =>
      intro acc
      rcases List.mem_cons.mp hx with he | hm
      · subst he
        have hstep : digitsAccGo radix acc (x :: rest)
            = digitsAccGo radix
                (match acc, digitVal radix x with
                 | some a, some d => some (a * radix + d)
                 | _, _ => none) rest := rfl
        rw [hstep, hdig]
        cases acc with
        | some a => exact digitsAccGo_none radix rest
        | none => exact digitsAccGo_none radix rest
      · have hstep : digitsAccGo radix acc (c :: rest)
            = digitsAccGo radix
                (match acc, digitVal radix c with
                 | some a, some d => some (a * radix + d)
                 | _, _ => none) rest := rfl
        rw [hstep]
        exact ih hm _

theorem digitsVal64_bad (radix : Nat) (cs : List Char) (x : Char)
    (hx : x ∈ cs) (hdig : digitVal radix x = none) : digitsVal64 radix cs = none := by
  have hne : cs.isEmpty = false := by
    cases cs
    · cases hx
    · rfl
  unfold digitsVal64 digitsAcc
  rw [hne, digitsAccGo_bad radix x hdig cs hx (some 0)]
  simp

theorem fromStrRadix_no_sign (radix : Nat) (cs : List Char)
    (hp : '+' ∉ cs) (hm : '-' ∉ cs) :
    fromStrRadix radix cs = digitsVal64 radix cs := by
  unfold fromStrRadix
  split
  · exact absurd (List.mem_cons_self _ _) hp
  · exact absurd (List.mem_cons_self _ _) hm
  · rfl

theorem dropWhile_append_all {α : Type} (p : α → Bool) (a b : List α)
    (h : ∀ x ∈ a, p x = true) : (a ++ b).dropWhile p = b.dropWhile p := by
  induction a with
  | nil => rfl
  | cons x rest ih =>
      rw [List.cons_append, List.dropWhile_cons, h x (List.mem_cons_self _ _)]
      simp only [if_true]
      exact ih (fun y hy => h y (List.mem_cons_of_mem _ hy))

theorem trimIntSuffix_append (s t : List Char) (h : t.all isSuffixChar = true) :
    trimIntSuffix (s ++ t) = trimIntSuffix s := by
  unfold trimIntSuffix
  rw [List.reverse_append, dropWhile_append_all]
  intro x hx
  rw [List.mem_reverse] at hx
  exact List.all_eq_true.mp h x hx

theorem mem_trimIntSuffix (x : Char) (s : List Char) (h : x ∈ trimIntSuffix s) : x ∈ s := by
  unfold trimIntSuffix at h
  rw [List.mem_reverse] at h
  exact List.mem_reverse.mp ((List.dropWhile_sublist isSuffixChar).subset h)

theorem parseCore_none_of_bad (t : List Char) (hp : '+' ∉ t) (hm : '-' ∉ t)
    (hcore : claimCoreOK t = false) : parseCore t = none := by
  rcases t with _ | ⟨c0, rest⟩
  · rfl
  by_cases h0 : c0 = '0'
  · subst h0
    rcases rest with _ | ⟨c1, rtail⟩
    · exact absurd hcore (by decide)
    by_cases hx : c1 = 'x'
    · subst hx
      have hpc : parseCore ('0' :: 'x' :: rtail) = fromStrRadix 16 rtail := rfl
      have hcc : claimCoreOK ('0' :: 'x' :: rtail)
          = (!rtail.isEmpty && rtail.all isHexDigitCh) := rfl
      rw [hpc]
      rw [hcc] at hcore
      have hp' : '+' ∉ rtail := fun hmem => hp (by simp [hmem])
      have hm' : '-' ∉ rtail := fun hmem => hm (by simp [hmem])
      rw [fromStrRadix_no_sign 16 rtail hp' hm']
      rcases Bool.and_eq_false_iff.mp hcore with hempty | hall
      · have hnil : rtail = [] := by
          cases rtail
          · rfl
          · simp at hempty
        subst hnil
        rfl
      · obtain ⟨y, hymem, hybad⟩ := List.all_eq_false.mp hall
        exact digitsVal64_bad 16 rtail y hymem
          (digitVal_16_eq_none y (Bool.eq_false_iff.mpr hybad))
    by_cases hX : c1 = 'X'
    · subst hX
      have hpc : parseCore ('0' :: 'X' :: rtail) = fromStrRadix 16 rtail := rfl
      have hcc : claimCoreOK ('0' :: 'X' :: rtail)
          = (!rtail.isEmpty && rtail.all isHexDigitCh) := rfl
      rw [hpc]
      rw [hcc] at hcore
      have hp' : '+' ∉ rtail := fun hmem => hp (by simp [hmem])
      have hm' : '-' ∉ rtail := fun hmem => hm (by simp [hmem])
      rw [fromStrRadix_no_sign 16 rtail hp' hm']
      rcases Bool.and_eq_false_iff.mp hcore with hempty | hall
      · have hnil : rtail = [] := by
          cases rtail
          · rfl
          · simp at hempty
        subst hnil
        rfl
      · obtain ⟨y, hymem, hybad⟩ := List.all_eq_false.mp hall
        exact digitsVal64_bad 16 rtail y hymem
          (digitVal_16_eq_none y (Bool.eq_false_iff.mpr hybad))
    · have hpc : parseCore ('0' :: c1 :: rtail)
          = (if (c1 :: rtail).isEmpty then some 0
             else if (c1 :: rtail).all Char.isDigit then fromStrRadix 8 (c1 :: rtail)
             else none) := by
        unfold parseCore
        split
        · rename_i heq
          injection heq with ha hb
          injection hb with hc hd
          exact absurd hc hx
        · rename_i heq
          injection heq with ha hb
          injection hb with hc hd
          exact absurd hc hX
        · rename_i heq
          injection heq with ha hb
          rw [← hb]
        · rename_i hne
          exact absurd rfl (hne (c1 :: rtail))
      have hcc : claimCoreOK ('0' :: c1 :: rtail) = (c1 :: rtail).all isOctDigitCh := by
        unfold claimCoreOK
        split
        · rename_i heq
          injection heq with ha hb
          injection hb with hc hd
          exact absurd hc hx
        · rename_i heq
          injection heq with ha hb
          injection hb with hc hd
          exact absurd hc hX
        · rename_i heq
          injection heq with ha hb
          rw [← hb]
        · rename_i hne
          exact absurd rfl (hne (c1 :: rtail))
      rw [hpc]
      rw [hcc] at hcore
      have hip : ((c1 :: rtail).isEmpty = false) := rfl
      rw [hip]
      by_cases hdig : (c1 :: rtail).all Char.isDigit
      · rw [hdig]
        have hp' : '+' ∉ c1 :: rtail := fun hmem => hp (by simp [hmem])
        have hm' : '-' ∉ c1 :: rtail := fun hmem => hm (by simp [hmem])
        rw [fromStrRadix_no_sign 8 _ hp' hm']
        obtain ⟨y, hymem, hybad⟩ := List.all_eq_false.mp hcore
        have hydig : y.isDigit = true := List.all_eq_true.mp hdig y hymem
        exact digitsVal64_bad 8 _ y hymem
          (digitVal_8_eq_none y hydig (Bool.eq_false_iff.mpr hybad))
      · have hdig' : (c1 :: rtail).all Char.isDigit = false := Bool.eq_false_iff.mpr hdig
        rw [hdig']
        simp
  · have hpc : parseCore (c0 :: rest) = fromStrRadix 10 (c0 :: rest) := by
      unfold parseCore
      split
      · rename_i heq
        injection heq with ha hb
        exact absurd ha h0
      · rename_i heq
        injection heq with ha hb
        exact absurd ha h0
      · rename_i heq
        injection heq with ha hb
        exact absurd ha h0
      · rfl
    have hcc : claimCoreOK (c0 :: rest)
        = (!(c0 :: rest).isEmpty && (c0 :: rest).all Char.isDigit) := by
      unfold claimCoreOK
      split
      · rename_i heq
        injection heq with ha hb
        exact absurd ha h0
      · rename_i heq
        injection heq with ha hb
        exact absurd ha h0
      · rename_i heq
        injection heq with ha hb
        exact absurd ha h0
      · rfl
    rw [hpc, fromStrRadix_no_sign 10 _ hp hm]
    rw [hcc] at hcore
    rcases Bool.and_eq_false_iff.mp hcore with hempty | hall
    · simp at hempty
    · obtain ⟨y, hymem, hybad⟩ := List.all_eq_false.mp hall
      exact digitsVal64_bad 10 _ y hymem
        (digitVal_10_eq_none y (Bool.eq_false_iff.mpr hybad))

/-- Claim C7, as stated, is false: the accepted suffixes are not limited to
`U`, `L`, `LL`, `UL`, `ULL` (case-insensitive).  The token `1uu` matches no
split core++suffix under the claim's grammar (`claimTokenOK`), yet
`collect_constants`' supplemental walk accepts `#define X 1uu` with value 1,
because `trim_end_matches` strips ANY trailing run of `u`/`U`/`l`/`L`. -/
theorem c7_counterexample :
    claimTokenOK "1uu" = false
    ∧ tokensToConstant ["X", "1uu"] = some (ConstantValue.Signed 1) := by
  constructor
  · decide
  · rfl

/-- Claim C7 (amended): for a macro definition not already captured by
sonar, whose (`"#"`-stripped) token list is the name followed by one literal
token optionally preceded by `-`, the literal is accepted iff
`parse_hex_or_suffixed_int` accepts it; the value is the parsed one
(`Signed` when it fits `i64`, else `Unsigned`), and with `-` present it is
the wrapping 64-bit two's-complement negation.  Parsing first strips ANY
trailing run of `u`/`U`/`l`/`L` characters (so all the C suffixes `U`, `L`,
`LL`, `UL`, `ULL` and also non-standard runs are accepted as suffixes), and
a token whose suffix-stripped core fails the hex/octal/decimal grammar is
rejected.  Any other token-list shape is skipped. -/
theorem c7_macro_token_parsing :
    (∀ (name tok : String), tok ≠ "#" →
      parse_hex_or_suffixed_int tok.toList = none →
      tokensToConstant [name, tok] = none)
    ∧ (∀ (name tok : String) (val : Nat), tok ≠ "#" →
        parse_hex_or_suffixed_int tok.toList = some val → val ≤ 2 ^ 63 - 1 →
        tokensToConstant [name, tok] = some (.Signed (val : Int)))
    ∧ (∀ (name tok : String) (val : Nat), tok ≠ "#" →
        parse_hex_or_suffixed_int tok.toList = some val → 2 ^ 63 - 1 < val →
        tokensToConstant [name, tok] = some (.Unsigned val))
    ∧ (∀ (name tok : String) (val : Nat), tok ≠ "#" →
        parse_hex_or_suffixed_int tok.toList = some val →
        tokensToConstant [name, "-", tok] = some (.Signed (negI64 val)))
    ∧ (∀ (name tok : String), tok ≠ "#" →
        parse_hex_or_suffixed_int tok.toList = none →
        tokensToConstant [name, "-", tok] = none)
    ∧ (∀ (name mid tok : String), mid ≠ "-" → tok ≠ "#" →
        tokensToConstant [name, mid, tok] = none)
    ∧ (∀ (name : String), tokensToConstant [name] = none)
    ∧ (∀ (s suffix : List Char), suffix.all isSuffixChar = true →
        parse_hex_or_suffixed_int (s ++ suffix) = parse_hex_or_suffixed_int s)
    ∧ (∀ (s : List Char), '+' ∉ s → '-' ∉ s →
        claimCoreOK (trimIntSuffix s) = false →
        parse_hex_or_suffixed_int s = none) := by
  refine ⟨?_, ?_, ?_, ?_, ?_, ?_, ?_, ?_, ?_⟩
  · intro name tok ht hparse
    simp only [String.toList] at hparse
    simp [tokensToConstant, ht, hparse]
  · intro name tok val ht hparse hle
    simp only [String.toList] at hparse
    simp [tokensToConstant, ht, hparse]
    omega
  · intro name tok val ht hparse hlt
    simp only [String.toList] at hparse
    simp [tokensToConstant, ht, hparse]
    omega
  · intro name tok val ht hparse
    simp only [String.toList] at hparse
    simp [tokensToConstant, ht, hparse]
  · intro name tok ht hparse
    simp only [String.toList] at hparse
    simp [tokensToConstant, ht, hparse]
  · intro name mid tok hmid ht
    simp [tokensToConstant, ht, hmid]
  · intro name
    by_cases hn : name = "#"
    · simp [tokensToConstant, hn]
    · simp [tokensToConstant, hn]
  · intro s suffix hsuf
    unfold parse_hex_or_suffixed_int
    rw [trimIntSuffix_append s suffix hsuf]
  · intro s hp hm hcore
    unfold parse_hex_or_suffixed_int
    exact parseCore_none_of_bad (trimIntSuffix s)
      (fun h => hp (mem_trimIntSuffix _ _ h))
      (fun h => hm (mem_trimIntSuffix _ _ h))
      hcore

/-- Witness for `c7_macro_token_parsing` at concrete inputs: `0x1` parses to
the signed constant 1, a suffix run `uLl` does not change the parse of
`0x10`, and `- 2` yields the negated value. -/
theorem c7_macro_token_parsing_witness :
    tokensToConstant ["PROT_READ", "0x1"] = some (ConstantValue.Signed 1)
    ∧ parse_hex_or_suffixed_int ("0x10".toList ++ "uLl".toList)
      = parse_hex_or_suffixed_int "0x10".toList
    ∧ tokensToConstant ["NEG", "-", "2"] = some (ConstantValue.Signed (negI64 2)) := by
  have h := c7_macro_token_parsing
  exact ⟨h.2.1 "PROT_READ" "0x1" 1 (by decide) rfl (by norm_num),
    h.2.2.2.2.2.2.2.1 "0x10".toList "uLl".toList (by decide),
    h.2.2.2.1 "NEG" "2" 2 (by decide) rfl⟩
